import Mathlib

set_option maxRecDepth 100000

/-!
Verification of the Creek voice-driven live-document engine.

The Rust sources are shallowly embedded: strings are modelled as `List Char`
(Rust byte offsets always fall on character boundaries in the operations
modelled here, so the character-level view is faithful), fallible code
returns `Except`, and asynchronous calls to external collaborators (LLM,
vector store) are modelled by explicit outcome parameters.  `f32` scores are
modelled by `ℚ`: every comparison the code performs on retained scores is a
total order comparison, which `ℚ` reproduces exactly.
-/

namespace Creek

/-! ### Rust string primitives (char-level model) -/

/-- Rust `char::is_whitespace`: the Unicode White_Space property. -/
def rustIsWs (c : Char) : Bool :=
  (0x09 ≤ c.val && c.val ≤ 0x0D) || c.val == 0x20 || c.val == 0x85 || c.val == 0xA0 ||
  c.val == 0x1680 || (0x2000 ≤ c.val && c.val ≤ 0x200A) || c.val == 0x2028 ||
  c.val == 0x2029 || c.val == 0x202F || c.val == 0x205F || c.val == 0x3000

/-- Rust `str::trim_start`. -/
def rustTrimStart (l : List Char) : List Char := l.dropWhile rustIsWs

/-- Rust `str::trim_end`. -/
def rustTrimEnd (l : List Char) : List Char := (l.reverse.dropWhile rustIsWs).reverse

/-- Rust `str::trim`. -/
def rustTrim (l : List Char) : List Char := rustTrimEnd (rustTrimStart l)

/-- First index at which `s` occurs as a sub-list of `d` (Rust `str::find`).
Searches every suffix; the empty pattern matches at offset 0. -/
def findSubAux (s : List Char) : List Char → Nat → Option Nat
  | [], i => if s.isPrefixOf [] then some i else none
  | c :: rest, i => if s.isPrefixOf (c :: rest) then some i else findSubAux s rest (i + 1)

def findSub (d s : List Char) : Option Nat := findSubAux s d 0

/-- Rust `str::contains`. -/
def containsSub (d s : List Char) : Bool := (findSub d s).isSome

/-- `s` occurs somewhere inside `d`. -/
def occursIn (d s : List Char) : Prop := ∃ pre post, d = pre ++ s ++ post

lemma isPrefixOf_iff_exists (s : List Char) :
    ∀ d : List Char, s.isPrefixOf d = true ↔ ∃ t, d = s ++ t := by
  induction s with
  | nil =>
    intro d
    simp [List.isPrefixOf]
  | cons c cs ih =>
    intro d
    cases d with
    | nil =>
      simp [List.isPrefixOf]
    | cons b bs =>
      simp only [List.isPrefixOf, Bool.and_eq_true, beq_iff_eq, ih bs, List.cons_append,
        List.cons.injEq]
      constructor
      · rintro ⟨rfl, t, rfl⟩
        exact ⟨t, rfl, rfl⟩
      · rintro ⟨t, rfl, rfl⟩
        exact ⟨rfl, t, rfl⟩

lemma findSubAux_eq_none (s : List Char) :
    ∀ (d : List Char) (i : Nat), (∀ j, ¬ s.isPrefixOf (d.drop j) = true) →
      findSubAux s d i = none := by
  intro d
  induction d with
  | nil =>
    intro i h
    rw [findSubAux]
    have h0 := h 0
    simp only [List.drop_nil] at h0
    simp [h0]
  | cons c rest ih =>
    intro i h
    rw [findSubAux]
    have h0 := h 0
    simp only [List.drop_zero] at h0
    simp only [h0, if_false]
    exact ih (i + 1) fun j => by
      have := h (j + 1)
      simpa using this

lemma findSubAux_isSome (s : List Char) :
    ∀ (d : List Char) (j i : Nat), s.isPrefixOf (d.drop j) = true →
      (findSubAux s d i).isSome = true := by
  intro d
  induction d with
  | nil =>
    intro j i h
    simp only [List.drop_nil] at h
    rw [findSubAux, h]
    rfl
  | cons c rest ih =>
    intro j i h
    rw [findSubAux]
    by_cases hp : s.isPrefixOf (c :: rest) = true
    · simp [hp]
    · cases j with
      | zero =>
        simp only [List.drop_zero] at h
        exact absurd h hp
      | succ j' =>
        simp only [List.drop_succ_cons] at h
        simp only [hp, if_false]
        exact ih j' (i + 1) h

/-- `findSub` finds nothing exactly when `s` occurs nowhere in `d`. -/
lemma findSub_none_iff (d s : List Char) : findSub d s = none ↔ ¬ occursIn d s := by
  constructor
  · intro hnone hocc
    obtain ⟨pre, post, rfl⟩ := hocc
    have hpref : s.isPrefixOf ((pre ++ s ++ post).drop pre.length) = true := by
      rw [List.append_assoc, List.drop_left]
      exact (isPrefixOf_iff_exists s (s ++ post)).2 ⟨post, rfl⟩
    have := findSubAux_isSome s (pre ++ s ++ post) pre.length 0 hpref
    rw [findSub] at hnone
    rw [hnone] at this
    simp at this
  · intro hno
    apply findSubAux_eq_none
    intro j hpre
    obtain ⟨t, ht⟩ := (isPrefixOf_iff_exists s (d.drop j)).1 hpre
    have hd : d = d.take j ++ s ++ t := by
      rw [List.append_assoc, ← ht, List.take_append_drop]
    exact hno ⟨d.take j, t, hd⟩

/-- `containsSub` decides occurrence. -/
lemma containsSub_false_iff (d s : List Char) : containsSub d s = false ↔ ¬ occursIn d s := by
  rw [containsSub, ← findSub_none_iff]
  cases h : findSub d s <;> simp [Option.isSome, h]

lemma length_dropWhile_le (p : Char → Bool) (l : List Char) :
    (l.dropWhile p).length ≤ l.length := by
  induction l with
  | nil => simp [List.dropWhile]
  | cons c rest ih =>
    rw [List.dropWhile]
    cases p c
    · simp
    · simp
      omega

lemma length_rustTrimEnd_le (l : List Char) : (rustTrimEnd l).length ≤ l.length := by
  rw [rustTrimEnd, List.length_reverse]
  calc (l.reverse.dropWhile rustIsWs).length ≤ l.reverse.length :=
        length_dropWhile_le _ _
    _ = l.length := List.length_reverse l

lemma length_rustTrim_le (l : List Char) : (rustTrim l).length ≤ l.length := by
  rw [rustTrim, rustTrimStart]
  calc (rustTrimEnd (l.dropWhile rustIsWs)).length ≤ (l.dropWhile rustIsWs).length :=
        length_rustTrimEnd_le _
    _ ≤ l.length := length_dropWhile_le _ _

lemma rustTrim_eq_nil_of_all_ws (l : List Char) (h : ∀ c ∈ l, rustIsWs c = true) :
    rustTrim l = [] := by
  have h1 : rustTrimStart l = [] := by
    rw [rustTrimStart, List.dropWhile_eq_nil_iff]
    intro x hx
    exact h x hx
  rw [rustTrim, h1, rustTrimEnd]
  simp [List.dropWhile]

/-! ### diff.rs: parser, fuzzy matcher, apply_patch -/

structure PendingPatch where
  search_block : List Char
  replace_block : List Char
deriving DecidableEq, Repr

structure MatchResult where
  start_index : Nat
  end_index : Nat
  confidence : ℚ
deriving DecidableEq, Repr

inductive PatchError where
  | NotFound
  | ApplyFailed (msg : List Char)
deriving DecidableEq, Repr

/-- `impl Display for PatchError`. -/
def patchErrorMessage : PatchError → List Char
  | .NotFound => ("Search block not found in document").data
  | .ApplyFailed msg => ("Failed to apply patch: ").data ++ msg

/-- `is_separator_line`: a trimmed line of at least three `=` characters. -/
def is_separator_line (s : List Char) : Bool :=
  let t := rustTrim s
  if t.length < 3 then false else t.all (· == '=')

/-- `is_search_marker_line`: mentions SEARCH and starts with a run of at least three `<`. -/
def is_search_marker_line (s : List Char) : Bool :=
  let t := rustTrimStart s
  containsSub t (("SEARCH").data) && decide (3 ≤ (t.takeWhile (· == '<')).length)

/-- `is_replace_marker_line`: mentions REPLACE and starts with a run of at least three `>`. -/
def is_replace_marker_line (s : List Char) : Bool :=
  let t := rustTrimStart s
  containsSub t (("REPLACE").data) && decide (3 ≤ (t.takeWhile (· == '>')).length)

inductive ParserState where
  | Idle
  | InSearch
  | InReplace
deriving DecidableEq, Repr

structure DiffParser where
  state : ParserState
  current_search : List Char
  current_replace : List Char
deriving DecidableEq, Repr

namespace DiffParser

def new : DiffParser := ⟨.Idle, [], []⟩

/-- `DiffParser::process_line`: the three-state line machine.  Lines arrive from
`split_inclusive('\n')`, so they normally keep their trailing newline. -/
def process_line (p : DiffParser) (line : List Char) : DiffParser × Option PendingPatch :=
  let trimmed := rustTrim line
  match p.state with
  | .Idle =>
    if is_search_marker_line trimmed then
      ({ state := .InSearch, current_search := [], current_replace := [] }, none)
    else (p, none)
  | .InSearch =>
    if is_separator_line trimmed then
      ({ p with state := .InReplace }, none)
    else
      let appended := p.current_search ++ line ++
        (if line.getLast? = some '\n' then [] else ['\n'])
      ({ p with current_search := appended }, none)
  | .InReplace =>
    if is_replace_marker_line trimmed then
      ({ p with state := .Idle },
       some ⟨rustTrimEnd p.current_search, rustTrimEnd p.current_replace⟩)
    else
      let appended := p.current_replace ++ line ++
        (if line.getLast? = some '\n' then [] else ['\n'])
      ({ p with current_replace := appended }, none)

/-- Newline normalisation in `parse_all`: `replace("\r\n", "\n").replace('\r', "\n")`. -/
def normNl : List Char → List Char
  | [] => []
  | '\r' :: '\n' :: rest => '\n' :: normNl rest
  | '\r' :: rest => '\n' :: normNl rest
  | c :: rest => c :: normNl rest

/-- Rust `str::split_inclusive('\n')`: segments keep their terminator;
the empty string yields no segments. -/
def splitInclAux : List Char → List Char → List (List Char)
  | [], cur => if cur = [] then [] else [cur]
  | c :: rest, cur =>
    if c = '\n' then (cur ++ ['\n']) :: splitInclAux rest []
    else splitInclAux rest (cur ++ [c])

def splitInclusiveNl (l : List Char) : List (List Char) := splitInclAux l []

/-- The injection filter of `parse_all`: the replace body contains one of the
canonical protocol markers as a substring. -/
def replace_has_markers (p : PendingPatch) : Bool :=
  containsSub p.replace_block (("<<<<<<< SEARCH").data) ||
  containsSub p.replace_block ((">>>>>>> REPLACE").data) ||
  containsSub p.replace_block (("=======").data)

def parseAllAux : DiffParser → List (List Char) → List PendingPatch
  | _, [] => []
  | st, l :: rest =>
    match process_line st l with
    | (st', some patch) =>
      if replace_has_markers patch then parseAllAux st' rest
      else patch :: parseAllAux st' rest
    | (st', none) => parseAllAux st' rest

/-- `DiffParser::parse_all`. -/
def parse_all (text : List Char) : List PendingPatch :=
  parseAllAux new (splitInclusiveNl (normNl text))

end DiffParser

namespace FuzzyMatcher

/-- `FuzzyMatcher::locate_exact`: byte-substring match, confidence 1.0. -/
def locate_exact (doc search_text : List Char) : Option MatchResult :=
  (findSub doc search_text).map fun start =>
    ⟨start, start + search_text.length, 1⟩

/-- Rust `str::lines` together with the start offset of each line: split on
`'\n'` without a trailing empty segment, stripping one trailing `'\r'`
from each terminated line. -/
def stripCr (l : List Char) : List Char :=
  if l.getLast? = some '\r' then l.dropLast else l

def linesPosAux : List Char → Nat → List Char → Nat → List (Nat × List Char)
  | [], _, cur, curStart => if cur = [] then [] else [(curStart, cur)]
  | c :: rest, pos, cur, curStart =>
    if c = '\n' then (curStart, stripCr cur) :: linesPosAux rest (pos + 1) [] (pos + 1)
    else linesPosAux rest (pos + 1) (cur ++ [c]) curStart

def linesPos (l : List Char) : List (Nat × List Char) := linesPosAux l 0 [] 0

def rustLines (l : List Char) : List (List Char) := (linesPos l).map Prod.snd

/-- One window comparison of `locate_normalized` at the current start line:
on a trim-match, map the window back to offsets of the first and last line. -/
def winAt (dl : List (Nat × List Char)) (ns : List (List Char)) : Option MatchResult :=
  if (dl.take ns.length).map (fun q => rustTrim q.2) = ns then
    match dl.take ns.length with
    | [] => none
    | first :: _ =>
      match (dl.take ns.length).getLast? with
      | some last => some ⟨first.1, last.1 + last.2.length, 9 / 10⟩
      | none => none
  else none

/-- The window scan of `locate_normalized`: try each start line in order,
breaking when the remaining document is shorter than the search. -/
def scanNorm : List (Nat × List Char) → List (List Char) → Option MatchResult
  | [], ns => if ns.length ≤ 0 then winAt [] ns else none
  | d :: rest, ns =>
    if ns.length ≤ (d :: rest).length then
      match winAt (d :: rest) ns with
      | some r => some r
      | none => scanNorm rest ns
    else none

/-- `FuzzyMatcher::locate_normalized`: line-window match after `trim()`,
confidence 0.9. -/
def locate_normalized (doc search_text : List Char) : Option MatchResult :=
  let search_lines := rustLines search_text
  if search_lines.isEmpty then none
  else scanNorm (linesPos doc) (search_lines.map rustTrim)

end FuzzyMatcher

/-- `apply_patch`: exact match first, then normalised line match, else `NotFound`. -/
def apply_patch (doc : List Char) (patch : PendingPatch) : Except PatchError (List Char) :=
  match FuzzyMatcher.locate_exact doc patch.search_block with
  | some m => .ok (doc.take m.start_index ++ patch.replace_block ++ doc.drop m.end_index)
  | none =>
    match FuzzyMatcher.locate_normalized doc patch.search_block with
    | some m => .ok (doc.take m.start_index ++ patch.replace_block ++ doc.drop m.end_index)
    | none => .error .NotFound

/-- `search` matches the document as a trim-normalised line window starting at
line `i`: the window fits and every line agrees after `trim()`. -/
def windowMatchAt (doc search : List Char) (i : Nat) : Prop :=
  FuzzyMatcher.rustLines search ≠ [] ∧
  (FuzzyMatcher.rustLines search).length ≤ ((FuzzyMatcher.rustLines doc).drop i).length ∧
  (((FuzzyMatcher.rustLines doc).drop i).take (FuzzyMatcher.rustLines search).length).map rustTrim
    = (FuzzyMatcher.rustLines search).map rustTrim

namespace FuzzyMatcher

lemma winAt_eq_none_of_ne (dl : List (Nat × List Char)) (ns : List (List Char))
    (h : (dl.take ns.length).map (fun q => rustTrim q.2) ≠ ns) : winAt dl ns = none := by
  rw [winAt, if_neg h]

lemma winAt_isSome (dl : List (Nat × List Char)) (ns : List (List Char))
    (hne : ns ≠ []) (hlen : ns.length ≤ dl.length)
    (heq : (dl.take ns.length).map (fun q => rustTrim q.2) = ns) :
    (winAt dl ns).isSome = true := by
  rw [winAt, if_pos heq]
  have htake : dl.take ns.length ≠ [] := by
    intro hnil
    have : (dl.take ns.length).length = 0 := by rw [hnil]; rfl
    rw [List.length_take] at this
    rcases Nat.min_eq_zero_iff.1 this with h1 | h2
    · exact hne (List.length_eq_zero.1 h1)
    · have : ns.length = 0 := Nat.le_antisymm (h2 ▸ hlen) (Nat.zero_le _)
      exact hne (List.length_eq_zero.1 this)
  rcases hd : dl.take ns.length with _ | ⟨first, tl⟩
  · exact absurd hd htake
  · rcases hl : (dl.take ns.length).getLast? with _ | last
    · rw [hd] at hl
      simp at hl
    · rw [hd] at hl
      rw [hl]
      rfl

lemma scanNorm_nil_ns : ∀ dl : List (Nat × List Char), scanNorm dl [] = none
  | [] => by
    rw [scanNorm]
    simp [winAt]
  | d :: rest => by
    rw [scanNorm]
    simp only [List.length_nil, List.length_cons, Nat.zero_le, if_true]
    have hw : winAt (d :: rest) [] = none := by
      rw [winAt]
      simp
    rw [hw]
    exact scanNorm_nil_ns rest

lemma scanNorm_none_of (ns : List (List Char)) :
    ∀ dl : List (Nat × List Char),
      (∀ i, ns ≠ [] → ns.length ≤ (dl.drop i).length →
        ((dl.drop i).take ns.length).map (fun q => rustTrim q.2) ≠ ns) →
      scanNorm dl ns = none
  | [], h => by
    rw [scanNorm]
    rcases hne : ns with _ | ⟨n0, ntl⟩
    · simp [winAt]
    · simp [hne]
  | d :: rest, h => by
    by_cases hn : ns = []
    · rw [hn]
      exact scanNorm_nil_ns _
    rw [scanNorm]
    by_cases hlen : ns.length ≤ (d :: rest).length
    · rw [if_pos hlen]
      have h0 := h 0 hn (by simpa using hlen)
      simp only [List.drop_zero] at h0
      rw [winAt_eq_none_of_ne _ _ h0]
      exact scanNorm_none_of ns rest fun i hni hl => by
        have := h (i + 1) hni (by simpa using hl)
        simpa using this
    · rw [if_neg hlen]

lemma scanNorm_isSome_of (ns : List (List Char)) :
    ∀ (i : Nat) (dl : List (Nat × List Char)), ns ≠ [] → ns.length ≤ (dl.drop i).length →
      ((dl.drop i).take ns.length).map (fun q => rustTrim q.2) = ns →
      (scanNorm dl ns).isSome = true := by
  intro i
  induction i with
  | zero =>
    intro dl hne hlen heq
    simp only [List.drop_zero] at hlen heq
    rcases dl with _ | ⟨d, rest⟩
    · have : ns.length = 0 := Nat.le_antisymm (by simpa using hlen) (Nat.zero_le _)
      exact absurd (List.length_eq_zero.1 this) hne
    · rw [scanNorm, if_pos hlen]
      have hw := winAt_isSome (d :: rest) ns hne hlen heq
      rcases hws : winAt (d :: rest) ns with _ | r
      · rw [hws] at hw
        simp at hw
      · rfl
  | succ i ih =>
    intro dl hne hlen heq
    rcases dl with _ | ⟨d, rest⟩
    · simp only [List.drop_nil] at hlen
      have : ns.length = 0 := Nat.le_antisymm (by simpa using hlen) (Nat.zero_le _)
      exact absurd (List.length_eq_zero.1 this) hne
    · simp only [List.drop_succ_cons] at hlen heq
      rw [scanNorm]
      have hlen' : ns.length ≤ (d :: rest).length := by
        have h1 : (rest.drop i).length ≤ rest.length := by
          rw [List.length_drop]
          omega
        simp only [List.length_cons]
        omega
      rw [if_pos hlen']
      rcases hws : winAt (d :: rest) ns with _ | r
      · exact ih rest hne hlen heq
      · rfl

lemma map_window_bridge (doc : List Char) (i n : Nat) :
    (((linesPos doc).drop i).take n).map (fun q => rustTrim q.2)
      = (((rustLines doc).drop i).take n).map rustTrim := by
  rw [rustLines, ← List.map_drop, ← List.map_take, List.map_map]
  rfl

lemma length_drop_bridge (doc : List Char) (i : Nat) :
    ((linesPos doc).drop i).length = ((rustLines doc).drop i).length := by
  rw [rustLines, ← List.map_drop, List.length_map]

/-- The normalised locator fails exactly when no trim-normalised window matches. -/
lemma locate_normalized_none_iff (doc s : List Char) :
    locate_normalized doc s = none ↔ ∀ i, ¬ windowMatchAt doc s i := by
  rw [locate_normalized]
  by_cases hsl : rustLines s = []
  · have hemp : (rustLines s).isEmpty = true := by
      rw [hsl]
      rfl
    rw [if_pos hemp]
    constructor
    · intro _ i hw
      exact hw.1 hsl
    · intro _
      rfl
  · have hemp : ¬ ((rustLines s).isEmpty = true) := by
      intro h
      exact hsl (List.isEmpty_iff.1 h)
    rw [if_neg hemp]
    constructor
    · intro hnone i hw
      obtain ⟨_, hlen, heq⟩ := hw
      have hne' : (rustLines s).map rustTrim ≠ [] := by
        intro h
        exact hsl (List.map_eq_nil_iff.1 h)
      have hlen' : ((rustLines s).map rustTrim).length ≤ ((linesPos doc).drop i).length := by
        rw [List.length_map, length_drop_bridge]
        exact hlen

      have heq' : (((linesPos doc).drop i).take ((rustLines s).map rustTrim).length).map
          (fun q => rustTrim q.2) = (rustLines s).map rustTrim := by
        rw [List.length_map, map_window_bridge]
        exact heq
      have := scanNorm_isSome_of ((rustLines s).map rustTrim) i (linesPos doc) hne' hlen' heq'
      rw [hnone] at this
      simp at this
    · intro hno
      apply scanNorm_none_of
      intro i hne hlen heq
      apply hno i
      refine ⟨hsl, ?_, ?_⟩
      · rw [List.length_map, length_drop_bridge] at hlen
        exact hlen
      · rw [List.length_map, map_window_bridge] at heq
        exact heq

/-- The exact locator fails exactly when the search text occurs nowhere. -/
lemma locate_exact_none_iff (doc s : List Char) :
    locate_exact doc s = none ↔ ¬ occursIn doc s := by
  rw [locate_exact, ← findSub_none_iff]
  cases h : findSub doc s <;> simp [h]

end FuzzyMatcher

/-! ### document_service.rs -/

/-- `DocumentState`: document content plus monotonic version counter. -/
structure DocumentState where
  content : List Char
  version : Nat
deriving DecidableEq, Repr

namespace DocumentService

/-- `DocumentService::reset`. -/
def reset (s : DocumentState) (new_content : List Char) : DocumentState :=
  ⟨new_content, s.version + 1⟩

/-- `DocumentService::append_content`. -/
def append_content (s : DocumentState) (chunk : List Char) : DocumentState :=
  ⟨s.content ++ chunk, s.version + 1⟩

/-- Number of trailing newlines of the content
(`chars().rev().take_while(|c| *c == '\n').count()`). -/
def trailing_newlines (content : List Char) : Nat :=
  (content.reverse.takeWhile (· == '\n')).length

/-- `DocumentService::ensure_newlines`. -/
def ensure_newlines (s : DocumentState) (count : Nat) : DocumentState :=
  if s.content = [] then s
  else if trailing_newlines s.content < count then
    ⟨s.content ++ List.replicate (count - trailing_newlines s.content) '\n', s.version + 1⟩
  else s

/-- `DocumentService::apply_patch_to_state`: on success the state advances,
on failure it is returned untouched together with the error message. -/
def apply_patch_to_state (s : DocumentState) (patch : PendingPatch) :
    DocumentState × Except (List Char) Unit :=
  match apply_patch s.content patch with
  | .ok new_content => (⟨new_content, s.version + 1⟩, .ok ())
  | .error e => (s, .error (patchErrorMessage e))

end DocumentService

/-- The document-mutating operations of `DocumentService`. -/
inductive DocOp where
  | reset (new_content : List Char)
  | append (chunk : List Char)
  | ensureNewlines (count : Nat)
  | applyPatch (patch : PendingPatch)
deriving DecidableEq, Repr

def stepDoc (op : DocOp) (s : DocumentState) : DocumentState :=
  match op with
  | .reset c => DocumentService.reset s c
  | .append c => DocumentService.append_content s c
  | .ensureNewlines n => DocumentService.ensure_newlines s n
  | .applyPatch p => (DocumentService.apply_patch_to_state s p).1

def runOps (ops : List DocOp) (s : DocumentState) : DocumentState :=
  ops.foldl (fun st op => stepDoc op st) s

/-! ### pipeline/types.rs: speech splitting and aggregation -/

def FLUSH_TIMEOUT_MS : Nat := 2000
def MAX_HISTORY : Nat := 6
def MAX_EDIT_RETRIES : Nat := 3
def MIN_SPEECH_CHARS : Nat := 40
def MAX_SPEECH_CHARS : Nat := 500

/-- `char_len`: number of characters. -/
def char_len (l : List Char) : Nat := l.length

/-- The sentence-boundary characters used by `split_long_speech`. -/
def isSplitBoundary (c : Char) : Bool :=
  c == '。' || c == '！' || c == '？' || c == '.' || c == '!' || c == '?' ||
  c == ';' || c == '；' || c == '\n'

/-- The character loop of `split_long_speech`: push each char, flushing the
buffer at sentence boundaries or when it reaches `MAX_SPEECH_CHARS`. -/
def slsLoop : List Char → List Char → List (List Char)
  | [], buf =>
    let tail := rustTrim buf
    if tail = [] then [] else [tail]
  | c :: rest, buf =>
    let buf' := buf ++ [c]
    if isSplitBoundary c || decide (MAX_SPEECH_CHARS ≤ char_len buf') then
      let chunk := rustTrim buf'
      if chunk = [] then slsLoop rest [] else chunk :: slsLoop rest []
    else slsLoop rest buf'

/-- `split_long_speech`. -/
def split_long_speech (s : List Char) : List (List Char) :=
  let t := rustTrim s
  if t = [] then []
  else if char_len t ≤ MAX_SPEECH_CHARS then [t]
  else slsLoop t []

/-- The sentence-ending characters `SpeechAggregator::push` checks with
`ends_with` (note: unlike the splitter, no `;`, `；` or newline). -/
def isPushPunct (c : Char) : Bool :=
  c == '。' || c == '！' || c == '？' || c == '.' || c == '!' || c == '?'

def buf_ends_with_punct (l : List Char) : Bool :=
  match l.getLast? with
  | some c => isPushPunct c
  | none => false

/-- Merging a trimmed chunk into the pending buffer (space-joined). -/
def mergeBuf (buf chunk : List Char) : List Char :=
  if buf = [] then chunk else buf ++ [' '] ++ chunk

/-- `SpeechAggregator::push`: returns the flushed turns and the new buffer. -/
def aggPush (buf chunk0 : List Char) : List (List Char) × List Char :=
  let chunk := rustTrim chunk0
  if chunk = [] then ([], buf)
  else if decide (MAX_SPEECH_CHARS < char_len chunk) then
    if decide (MIN_SPEECH_CHARS ≤ char_len buf) then
      (rustTrim buf :: split_long_speech chunk, [])
    else (split_long_speech chunk, buf)
  else
    let merged := mergeBuf buf chunk
    if (decide (MIN_SPEECH_CHARS ≤ char_len merged) && buf_ends_with_punct merged)
        || decide (MAX_SPEECH_CHARS ≤ char_len merged) then
      (split_long_speech (rustTrim merged), [])
    else ([], merged)

/-! ### transcript_processor.rs: plan resolution and chat history -/

structure PlanStep where
  intent : String
  instruction : String
deriving DecidableEq, Repr

/-- The fallback plan used when Router 1 fails or its task fails. -/
def fallback_plan : List PlanStep := [⟨"APPEND", "Process transcript"⟩]

/-- The forced plan for empty documents. -/
def forced_append_plan : List PlanStep := [⟨"APPEND", "Initial document content"⟩]

/-- Tab normalisation on ingress: `replace("\t", "    ")`. -/
def normalizeTabs (l : List Char) : List Char :=
  l.flatMap fun c => if c = '\t' then [' ', ' ', ' ', ' '] else [c]

/-- The plan actually executed by `process_transcript`: Router 1's result with
the APPEND fallback, overridden by a single forced APPEND when the (tab
normalised) document trims to empty.  The outer `Except` is the spawned
task's join result, the inner one the router's own result. -/
def computePlan (content : List Char) (router1 : Except Unit (Except Unit (List PlanStep))) :
    List PlanStep :=
  let full_doc := normalizeTabs content
  let plan := match router1 with
    | .ok (.ok p) => p
    | .ok (.error _) => fallback_plan
    | .error _ => fallback_plan
  if rustTrim full_doc = [] then forced_append_plan else plan

structure ChatMessage where
  role : String
  content : String
deriving DecidableEq, Repr

/-- The history truncation used by the append/edit/grep agents and by the
end-of-turn sync-back: keep the newest `MAX_HISTORY` messages. -/
def truncHistory (h : List ChatMessage) : List ChatMessage :=
  if MAX_HISTORY < h.length then h.drop (h.length - MAX_HISTORY) else h

/-- Pushing one `(user, assistant)` exchange onto the blackboard history. -/
def pushPair (h : List ChatMessage) (user asst : String) : List ChatMessage :=
  h ++ [⟨"user", user⟩, ⟨"assistant", asst⟩]

/-- The chat-history effect of each agent step, as implemented:
append/edit/grep finalisation truncates after pushing, while the undo, clear
and single-step NO-OP paths push without truncating. -/
inductive HistStep where
  | appendFinal (transcript response : String)
  | editFinal (transcript response : String)
  | grepFinal (transcript response : String)
  | undoFinal (transcript hash : String)
  | clearFinal (transcript : String)
  | noopSingle (transcript : String)
  | untouched
deriving DecidableEq, Repr

def stepHist (e : HistStep) (h : List ChatMessage) : List ChatMessage :=
  match e with
  | .appendFinal t r => truncHistory (pushPair h t r)
  | .editFinal t r => truncHistory (pushPair h t r)
  | .grepFinal t r => truncHistory (pushPair h t r)
  | .undoFinal t hash => pushPair h t ("ACTION: UNDO (to " ++ hash ++ ")")
  | .clearFinal t => pushPair h t "ACTION: CLEAR"
  | .noopSingle t => pushPair h t "ACTION: NOOP"
  | .untouched => h

/-- End-of-turn sync-back: the shared history is replaced by the blackboard
history and truncated to `MAX_HISTORY`. -/
def syncBack (h : List ChatMessage) : List ChatMessage := truncHistory h

/-! ### rag.rs and rag_agent.rs -/

/-- Outcome of an `await` wrapped in `tokio::time::timeout`. -/
inductive AsyncOutcome (α : Type) where
  | timeout
  | completed (value : α)

/-- A unified retrieval result (`SearchResult` in rag.rs).  The f32 score is
modelled as a rational. -/
structure SearchResult where
  content : String
  source : String
  timestamp : Int
  score : ℚ
deriving DecidableEq, Repr

def SIMILARITY_THRESHOLD : ℚ := 7 / 10

/-- A row coming back from a vector query on the turn table, including the
optional `_distance` column. -/
structure TurnRow where
  id : String
  timestamp : Int
  asr_input : String
  distance : Option ℚ
deriving DecidableEq, Repr

/-- A row coming back from a vector query on the resources table. -/
structure ResourceRow where
  source : String
  content : String
  distance : Option ℚ
deriving DecidableEq, Repr

structure ConversationTurn where
  id : String
  timestamp : Int
  asr_input : String
deriving DecidableEq, Repr

/-- A missing `_distance` column defaults to 0.0. -/
def distanceValue : Option ℚ → ℚ
  | some d => d
  | none => 0

/-- Cosine similarity derived from the L2 distance: `1 - d^2 / 2`. -/
def similarityOf (d : ℚ) : ℚ := 1 - d * d / 2

/-- Rust `Vec::sort_by(|a, b| b.score.partial_cmp(&a.score) ...)`: a stable
sort descending by score.  All retained scores pass a `>=` filter, so the
comparator is total on them; `insertionSort` is stable, hence produces the
same list as Rust's stable sort. -/
def sortByScoreDesc (l : List SearchResult) : List SearchResult :=
  l.insertionSort fun a b => b.score ≤ a.score

/-- `RagService::retrieve` on the turn table: filter rows by the similarity
threshold in stream order, keep `(turn, score)`, truncate to `top_k`. -/
def retrieve (rows : List TurnRow) (top_k : Nat) : List (ConversationTurn × ℚ) :=
  let turns := rows.filterMap fun r =>
    let similarity := similarityOf (distanceValue r.distance)
    if SIMILARITY_THRESHOLD ≤ similarity then
      some (⟨r.id, r.timestamp, r.asr_input⟩, similarity)
    else none
  turns.take top_k

/-- `RagService::retrieve_resources`: filter by threshold, sort by score
descending, truncate to `top_k`. -/
def retrieve_resources (rows : List ResourceRow) (top_k : Nat) : List SearchResult :=
  let results := rows.filterMap fun r =>
    let similarity := similarityOf (distanceValue r.distance)
    if SIMILARITY_THRESHOLD ≤ similarity then
      some ⟨r.content, r.source, 0, similarity⟩
    else none
  (sortByScoreDesc results).take top_k

/-- `RagService::retrieve_unified`: merge turn and resource results, sort by
score descending, truncate to `top_k`. -/
def retrieve_unified (turnRows : List TurnRow) (resourceRows : List ResourceRow)
    (top_k : Nat) : List SearchResult :=
  let results :=
    (retrieve turnRows top_k).map
      (fun p => SearchResult.mk p.1.asr_input "conversation" p.1.timestamp p.2)
    ++ retrieve_resources resourceRows top_k
  (sortByScoreDesc results).take top_k

def utf8Len (s : String) : Nat := (s.data.map Char.utf8Size).sum

def trimString (s : String) : String := ⟨rustTrim s.data⟩

/-- `QueryAgent::generate_query`: collect the LLM response under an internal
10s timeout; an error, a timeout, an empty or an over-100-byte trimmed
response all fall back to the user input.  The function never fails. -/
def generate_query (llm : AsyncOutcome (Except Unit String)) (user_input : String) :
    Except Unit String :=
  .ok (match llm with
    | .completed (.ok resp) =>
      let trimmed := trimString resp
      if trimmed = "" || decide (100 < utf8Len trimmed) then user_input else trimmed
    | .completed (.error _) => user_input
    | .timeout => user_input)

def sourceDisplay (r : SearchResult) : String :=
  if r.source = "conversation" then "History" else "Doc: " ++ r.source

/-- The numbered-list formatting of retrieved items in `RagAgent::gather`. -/
def formatResults (results : List SearchResult) : String :=
  String.join (results.enum.map fun p =>
    toString (p.1 + 1) ++ ". [" ++ sourceDisplay p.2 ++ "] " ++ p.2.content ++ "\n")

/-- `RagAgent::gather`.  `queryOutcome` is `generate_query`'s result seen
through the outer 3-second timeout; `retrieveOutcome` is `retrieve_unified`'s
result seen through the 1-second timeout.  The second component records the
query passed to `retrieve_unified`, `none` when no retrieval was attempted:
every error path returns empty context. -/
def gather (need_rag : Bool) (recording_id : Option String)
    (queryOutcome : AsyncOutcome (Except Unit String))
    (retrieveOutcome : AsyncOutcome (Except Unit (List SearchResult))) :
    String × Option String :=
  if !need_rag then ("", none)
  else match recording_id with
    | none => ("", none)
    | some _ =>
      match queryOutcome with
      | .timeout => ("", none)
      | .completed (.error _) => ("", none)
      | .completed (.ok query) =>
        match retrieveOutcome with
        | .completed (.ok results) =>
          (if results.isEmpty then "" else formatResults results, some query)
        | .completed (.error _) => ("", some query)
        | .timeout => ("", some query)

/-! ## Claim theorems -/

/-- Claim C10: a patch whose SEARCH block is empty never yields `NotFound`:
the exact locator matches at offset 0 with confidence 1.0 and the REPLACE
text is prepended to the document. -/
theorem C10_empty_search_prepends (doc r : List Char) :
    FuzzyMatcher.locate_exact doc [] = some ⟨0, 0, 1⟩ ∧
    apply_patch doc ⟨[], r⟩ = .ok (r ++ doc) := by
  have hfind : findSub doc [] = some 0 := by
    cases doc with
    | nil => rfl
    | cons c rest => rfl
  have hexact : FuzzyMatcher.locate_exact doc [] = some ⟨0, 0, 1⟩ := by
    rw [FuzzyMatcher.locate_exact, hfind]
    rfl
  refine ⟨hexact, ?_⟩
  rw [apply_patch]
  have hsb : (⟨[], r⟩ : PendingPatch).search_block = [] := rfl
  rw [hsb, hexact]
  simp

/-- Claim C1: when the SEARCH block occurs neither as an exact substring nor
as a trim-normalised line-window match, `apply_patch` returns `NotFound` and
`apply_patch_to_state` leaves content and version untouched. -/
theorem C1_notfound_atomic (doc : List Char) (p : PendingPatch) (s : DocumentState)
    (hcontent : s.content = doc)
    (hexact : ¬ occursIn doc p.search_block)
    (hnorm : ∀ i, ¬ windowMatchAt doc p.search_block i) :
    apply_patch doc p = .error .NotFound ∧
    DocumentService.apply_patch_to_state s p
      = (s, .error (("Search block not found in document").data)) := by
  have he : FuzzyMatcher.locate_exact doc p.search_block = none :=
    (FuzzyMatcher.locate_exact_none_iff _ _).2 hexact
  have hn : FuzzyMatcher.locate_normalized doc p.search_block = none :=
    (FuzzyMatcher.locate_normalized_none_iff _ _).2 hnorm
  have hap : apply_patch doc p = .error .NotFound := by
    rw [apply_patch, he, hn]
  refine ⟨hap, ?_⟩
  rw [DocumentService.apply_patch_to_state, hcontent, hap]
  rfl

theorem C1_witness :
    apply_patch (("Hello world").data) ⟨("Not here").data, ("New").data⟩
      = .error .NotFound ∧
    DocumentService.apply_patch_to_state ⟨("Hello world").data, 5⟩
        ⟨("Not here").data, ("New").data⟩
      = (⟨("Hello world").data, 5⟩,
         .error (("Search block not found in document").data)) :=
  C1_notfound_atomic (("Hello world").data) ⟨("Not here").data, ("New").data⟩
    ⟨("Hello world").data, 5⟩ rfl
    ((containsSub_false_iff _ _).1 (by decide))
    ((FuzzyMatcher.locate_normalized_none_iff _ _).1 (by decide))

/-- Claim C4: a document that is empty or whitespace-only forces the executed
plan to a single APPEND step, whatever Router 1 returned and whether or not
it succeeded. -/
theorem C4_empty_doc_forces_append (content : List Char)
    (router1 : Except Unit (Except Unit (List PlanStep)))
    (hws : ∀ c ∈ content, rustIsWs c = true) :
    computePlan content router1 = forced_append_plan ∧
    (computePlan content router1).length = 1 ∧
    ∀ step ∈ computePlan content router1, step.intent = "APPEND" := by
  have hall : ∀ c ∈ normalizeTabs content, rustIsWs c = true := by
    intro c hc
    rw [normalizeTabs, List.mem_flatMap] at hc
    obtain ⟨a, ha, hmem⟩ := hc
    by_cases hat : a = '\t'
    · rw [if_pos hat] at hmem
      simp only [List.mem_cons, List.not_mem_nil, or_false] at hmem
      rcases hmem with rfl | rfl | rfl | rfl
      all_goals decide
    · rw [if_neg hat] at hmem
      simp only [List.mem_singleton] at hmem
      rw [hmem]
      exact hws a ha
  have htrim : rustTrim (normalizeTabs content) = [] :=
    rustTrim_eq_nil_of_all_ws _ hall
  have hplan : computePlan content router1 = forced_append_plan := by
    simp only [computePlan, htrim, if_pos]
  refine ⟨hplan, by rw [hplan]; rfl, ?_⟩
  intro step hstep
  rw [hplan] at hstep
  simp only [forced_append_plan, List.mem_singleton] at hstep
  rw [hstep]

theorem C4_witness :
    computePlan (("  \t ").data) (.ok (.ok [⟨"EDIT", "change x"⟩])) = forced_append_plan ∧
    (computePlan (("  \t ").data) (.ok (.ok [⟨"EDIT", "change x"⟩]))).length = 1 ∧
    ∀ step ∈ computePlan (("  \t ").data) (.ok (.ok [⟨"EDIT", "change x"⟩])),
      step.intent = "APPEND" :=
  C4_empty_doc_forces_append (("  \t ").data) (.ok (.ok [⟨"EDIT", "change x"⟩]))
    (by decide)

/-- Claim C3: over any sequence of `DocumentService` operations the version
counter never decreases; `reset` and `append_content` strictly increase it;
a patch advances it exactly when it applies (failure leaves the state
untouched); `ensure_newlines` increments it exactly when it appends. -/
theorem C3_version_monotone :
    (∀ (ops : List DocOp) (s : DocumentState), s.version ≤ (runOps ops s).version) ∧
    (∀ (s : DocumentState) (c : List Char), (stepDoc (.reset c) s).version = s.version + 1) ∧
    (∀ (s : DocumentState) (c : List Char), (stepDoc (.append c) s).version = s.version + 1) ∧
    (∀ (s : DocumentState) (p : PendingPatch) (nc : List Char),
      apply_patch s.content p = .ok nc →
      stepDoc (.applyPatch p) s = ⟨nc, s.version + 1⟩) ∧
    (∀ (s : DocumentState) (p : PendingPatch) (e : PatchError),
      apply_patch s.content p = .error e → stepDoc (.applyPatch p) s = s) ∧
    (∀ (s : DocumentState) (n : Nat), s.content ≠ [] →
      DocumentService.trailing_newlines s.content < n →
      stepDoc (.ensureNewlines n) s =
        ⟨s.content ++ List.replicate (n - DocumentService.trailing_newlines s.content) '\n',
         s.version + 1⟩) ∧
    (∀ (s : DocumentState) (n : Nat),
      s.content = [] ∨ n ≤ DocumentService.trailing_newlines s.content →
      stepDoc (.ensureNewlines n) s = s) := by
  have hstep : ∀ (op : DocOp) (s : DocumentState), s.version ≤ (stepDoc op s).version := by
    intro op s
    cases op with
    | reset c => exact Nat.le_succ _
    | append c => exact Nat.le_succ _
    | ensureNewlines n =>
      rw [stepDoc, DocumentService.ensure_newlines]
      split
      · exact Nat.le_refl _
      · split
        · exact Nat.le_succ _
        · exact Nat.le_refl _

    | applyPatch p =>
      rw [stepDoc, DocumentService.apply_patch_to_state]
      cases h : apply_patch s.content p with
      | ok nc => simp [h]
      | error e => simp [h]
  refine ⟨?_, fun s c => rfl, fun s c => rfl, ?_, ?_, ?_, ?_⟩
  · intro ops
    induction ops with
    | nil => intro s; exact Nat.le_refl _
    | cons op rest ih =>
      intro s
      exact Nat.le_trans (hstep op s) (ih (stepDoc op s))
  · intro s p nc h
    rw [stepDoc, DocumentService.apply_patch_to_state, h]
  · intro s p e h
    rw [stepDoc, DocumentService.apply_patch_to_state, h]
  · intro s n hne hlt
    rw [stepDoc, DocumentService.ensure_newlines, if_neg hne, if_pos hlt]
  · intro s n h
    rcases h with h | h
    · rw [stepDoc, DocumentService.ensure_newlines, if_pos h]
    · rw [stepDoc, DocumentService.ensure_newlines]
      split
      · rfl
      · rw [if_neg (Nat.not_lt.2 h)]

lemma parseAllAux_no_canonical_markers :
    ∀ (ls : List (List Char)) (st : DiffParser) (p : PendingPatch),
      p ∈ DiffParser.parseAllAux st ls → DiffParser.replace_has_markers p = false := by
  intro ls
  induction ls with
  | nil =>
    intro st p hp
    simp [DiffParser.parseAllAux] at hp
  | cons l rest ih =>
    intro st p hp
    rw [DiffParser.parseAllAux] at hp
    rcases hpl : DiffParser.process_line st l with ⟨st', po⟩
    rw [hpl] at hp
    cases po with
    | none => exact ih st' p hp
    | some patch =>
      by_cases hm : DiffParser.replace_has_markers patch = true
      · simp only [hm, if_true] at hp
        exact ih st' p hp
      · simp only [hm, if_false] at hp
        rcases List.mem_cons.1 hp with rfl | hmem
        · exact Bool.not_eq_true _ ▸ Bool.eq_false_iff.2 hm
        · exact ih st' p hmem

/-- Claim C2 (amended): every patch emitted by `parse_all` has a REPLACE body
free of the canonical marker substrings `<<<<<<< SEARCH`, `>>>>>>> REPLACE`
and `=======`; tolerated non-canonical marker variants are not filtered (see
the counterexample). -/
theorem C2_no_canonical_marker_injection (text : List Char) (p : PendingPatch)
    (hp : p ∈ DiffParser.parse_all text) :
    ¬ occursIn p.replace_block (("<<<<<<< SEARCH").data) ∧
    ¬ occursIn p.replace_block ((">>>>>>> REPLACE").data) ∧
    ¬ occursIn p.replace_block (("=======").data) := by
  have h := parseAllAux_no_canonical_markers _ _ p hp
  rw [DiffParser.replace_has_markers] at h
  simp only [Bool.or_eq_false_iff] at h
  exact ⟨(containsSub_false_iff _ _).1 h.1.1,
         (containsSub_false_iff _ _).1 h.1.2,
         (containsSub_false_iff _ _).1 h.2⟩

theorem C2_witness :
    (⟨("foo").data, ("baz").data⟩ : PendingPatch) ∈
      DiffParser.parse_all (("<<<<<<< SEARCH\nfoo\n=======\nbaz\n>>>>>>> REPLACE\n").data) ∧
    ¬ occursIn (("baz").data) (("<<<<<<< SEARCH").data) :=
  ⟨by decide,
   (C2_no_canonical_marker_injection
      (("<<<<<<< SEARCH\nfoo\n=======\nbaz\n>>>>>>> REPLACE\n").data)
      ⟨("foo").data, ("baz").data⟩ (by decide)).1⟩

/-- Claim C2 counterexample: a REPLACE body containing the tolerated
separator variant `===` (a diff marker line by the parser's own
`is_separator_line`) is *not* rejected: the patch appears in the output. -/
theorem C2_counterexample :
    DiffParser.parse_all (("<<<<<<< SEARCH\nfoo\n=======\nbar\n===\n>>>>>>> REPLACE\n").data)
      = [⟨("foo").data, ("bar\n===").data⟩] ∧
    (FuzzyMatcher.rustLines (("bar\n===").data)).any (fun l => is_separator_line l) = true := by
  constructor
  · decide
  · decide

theorem C3_witness :
    stepDoc (.applyPatch ⟨("a").data, ("X").data⟩) ⟨("ab").data, 3⟩
      = ⟨("Xb").data, 4⟩ ∧
    stepDoc (.ensureNewlines 2) ⟨("ab").data, 3⟩ = ⟨("ab\n\n").data, 4⟩ :=
  ⟨C3_version_monotone.2.2.2.1 ⟨("ab").data, 3⟩ ⟨("a").data, ("X").data⟩ (("Xb").data)
      (by rfl),
   C3_version_monotone.2.2.2.2.2.1 ⟨("ab").data, 3⟩ 2 (by decide) (by decide)⟩

/-- Claim C5 counterexample: a buffer shorter than 40 characters ending in
sentence punctuation is *not* flushed by `push`; the claim's "exactly when
the buffer ends with sentence-ending punctuation" fails. -/
theorem C5_counterexample :
    aggPush [] (("Hi.").data) = ([], ("Hi.").data) ∧
    buf_ends_with_punct (("Hi.").data) = true ∧
    char_len (("Hi.").data) < MIN_SPEECH_CHARS := by
  refine ⟨?_, by decide, by decide⟩
  decide

/-- Claim C5 (amended): `push` never flushes a merged buffer shorter than 40
characters (regardless of punctuation); a merged buffer flushes exactly when
it has 40+ characters and ends in sentence punctuation, or reaches 500
characters; an incoming chunk longer than 500 characters flushes the pending
buffer only when that buffer already has 40+ characters, otherwise the
buffer is retained. -/
theorem C5_flush_conditions :
    (∀ buf chunk0 : List Char, rustTrim chunk0 ≠ [] →
      char_len (rustTrim chunk0) ≤ MAX_SPEECH_CHARS →
      char_len (mergeBuf buf (rustTrim chunk0)) < MIN_SPEECH_CHARS →
      aggPush buf chunk0 = ([], mergeBuf buf (rustTrim chunk0))) ∧
    (∀ buf chunk0 : List Char, rustTrim chunk0 ≠ [] →
      char_len (rustTrim chunk0) ≤ MAX_SPEECH_CHARS →
      ((MIN_SPEECH_CHARS ≤ char_len (mergeBuf buf (rustTrim chunk0)) ∧
          buf_ends_with_punct (mergeBuf buf (rustTrim chunk0)) = true) ∨
        MAX_SPEECH_CHARS ≤ char_len (mergeBuf buf (rustTrim chunk0))) →
      aggPush buf chunk0
        = (split_long_speech (rustTrim (mergeBuf buf (rustTrim chunk0))), [])) ∧
    (∀ buf chunk0 : List Char, rustTrim chunk0 ≠ [] →
      char_len (rustTrim chunk0) ≤ MAX_SPEECH_CHARS →
      ¬ ((MIN_SPEECH_CHARS ≤ char_len (mergeBuf buf (rustTrim chunk0)) ∧
          buf_ends_with_punct (mergeBuf buf (rustTrim chunk0)) = true) ∨
        MAX_SPEECH_CHARS ≤ char_len (mergeBuf buf (rustTrim chunk0))) →
      aggPush buf chunk0 = ([], mergeBuf buf (rustTrim chunk0))) ∧
    (∀ buf chunk0 : List Char, MAX_SPEECH_CHARS < char_len (rustTrim chunk0) →
      char_len buf < MIN_SPEECH_CHARS →
      aggPush buf chunk0 = (split_long_speech (rustTrim chunk0), buf)) ∧
    (∀ buf chunk0 : List Char, MAX_SPEECH_CHARS < char_len (rustTrim chunk0) →
      MIN_SPEECH_CHARS ≤ char_len buf →
      aggPush buf chunk0 = (rustTrim buf :: split_long_speech (rustTrim chunk0), [])) := by
  have hlong_ne : ∀ chunk0 : List Char, MAX_SPEECH_CHARS < char_len (rustTrim chunk0) →
      rustTrim chunk0 ≠ [] := by
    intro chunk0 h hb
    rw [hb] at h
    exact absurd h (by decide)
  refine ⟨?_, ?_, ?_, ?_, ?_⟩
  · intro buf chunk0 hne hlen hsmall
    have h2 : ¬ (MAX_SPEECH_CHARS < char_len (rustTrim chunk0)) := Nat.not_lt.2 hlen
    have h3 : ¬ (MIN_SPEECH_CHARS ≤ char_len (mergeBuf buf (rustTrim chunk0))) :=
      Nat.not_le.2 hsmall
    have h4 : ¬ (MAX_SPEECH_CHARS ≤ char_len (mergeBuf buf (rustTrim chunk0))) :=
      Nat.not_le.2 (Nat.lt_trans hsmall (by decide))
    simp [aggPush, hne, h2, h3, h4]
  · intro buf chunk0 hne hlen hflush
    have h2 : ¬ (MAX_SPEECH_CHARS < char_len (rustTrim chunk0)) := Nat.not_lt.2 hlen
    rcases hflush with ⟨hmin, hpunct⟩ | hmax
    · simp [aggPush, hne, h2, hmin, hpunct]
    · simp [aggPush, hne, h2, hmax]
  · intro buf chunk0 hne hlen hnoflush
    have h2 : ¬ (MAX_SPEECH_CHARS < char_len (rustTrim chunk0)) := Nat.not_lt.2 hlen
    rw [not_or, not_and_or] at hnoflush
    obtain ⟨hmp, hmax⟩ := hnoflush
    rcases hmp with hmin | hpunct
    · simp [aggPush, hne, h2, hmin, hmax]
    · simp [aggPush, hne, h2, hpunct, hmax]
  · intro buf chunk0 hlong hsmall
    have hne := hlong_ne chunk0 hlong
    have h3 : ¬ (MIN_SPEECH_CHARS ≤ char_len buf) := Nat.not_le.2 hsmall
    simp [aggPush, hne, hlong, h3]
  · intro buf chunk0 hlong hbig
    have hne := hlong_ne chunk0 hlong
    simp [aggPush, hne, hlong, hbig]

theorem C5_witness :
    aggPush [] (("Hi").data) = ([], mergeBuf [] (rustTrim (("Hi").data))) :=
  C5_flush_conditions.1 [] (("Hi").data) (by decide) (by decide) (by decide)

lemma sls_pieces :
    ∀ rem buf : List Char, char_len buf < MAX_SPEECH_CHARS →
      ∀ p ∈ slsLoop rem buf, p ≠ [] ∧ char_len p ≤ MAX_SPEECH_CHARS := by
  intro rem
  induction rem with
  | nil =>
    intro buf hbuf p hp
    rw [slsLoop] at hp
    by_cases ht : rustTrim buf = []
    · simp [ht] at hp
    · simp [ht] at hp
      subst hp
      refine ⟨ht, ?_⟩
      exact Nat.le_trans (length_rustTrim_le buf) (Nat.le_of_lt hbuf)
  | cons c rest ih =>
    intro buf hbuf p hp
    rw [slsLoop] at hp
    by_cases hcond : (isSplitBoundary c
        || decide (MAX_SPEECH_CHARS ≤ char_len (buf ++ [c]))) = true
    · rw [if_pos hcond] at hp
      by_cases hch : rustTrim (buf ++ [c]) = []
      · simp only [hch, if_true] at hp
        exact ih [] (by decide) p hp
      · simp [hch] at hp
        rcases hp with rfl | hp
        · refine ⟨hch, ?_⟩
          show (rustTrim (buf ++ [c])).length ≤ MAX_SPEECH_CHARS
          have h1 : (rustTrim (buf ++ [c])).length ≤ (buf ++ [c]).length :=
            length_rustTrim_le _
          have h2 : (buf ++ [c]).length = buf.length + 1 := by simp
          have h3 : buf.length < MAX_SPEECH_CHARS := hbuf
          omega
        · exact ih [] (by decide) p hp
    · rw [if_neg (by simpa using hcond)] at hp
      have hlt : char_len (buf ++ [c]) < MAX_SPEECH_CHARS := by
        rcases Bool.or_eq_false_iff.1 (Bool.eq_false_iff.2 hcond) with ⟨_, hd⟩
        have := of_decide_eq_false hd
        omega
      exact ih (buf ++ [c]) hlt p hp

/-- Claim C6 (amended): `split_long_speech` on a fragment of 500+ characters
splits at sentence punctuation or at the 500-character cap (the cap split may
fall mid-word, see the counterexample); every returned piece is non-empty
after trimming and at most 500 characters long. -/
theorem C6_split_bounds (s : List Char) (hlen : MAX_SPEECH_CHARS ≤ char_len s) :
    ∀ p ∈ split_long_speech s, p ≠ [] ∧ char_len p ≤ MAX_SPEECH_CHARS := by
  intro p hp
  rw [split_long_speech] at hp
  by_cases ht : rustTrim s = []
  · simp [ht] at hp
  · by_cases hle : char_len (rustTrim s) ≤ MAX_SPEECH_CHARS
    · simp [ht, hle] at hp
      subst hp
      exact ⟨ht, hle⟩
    · simp [ht, hle] at hp
      exact sls_pieces (rustTrim s) [] (by decide) p hp

theorem C6_witness :
    List.replicate 500 'a' ≠ [] ∧ char_len (List.replicate 500 'a') ≤ MAX_SPEECH_CHARS :=
  C6_split_bounds (List.replicate 500 'a') (by decide) (List.replicate 500 'a') (by decide)

/-- Claim C6 counterexample: a 501-character fragment with no punctuation is
split at the 500-character cap, i.e. in the middle of a word: the boundary
character `a` is not a sentence boundary. -/
theorem C6_counterexample :
    split_long_speech (List.replicate 501 'a')
      = [List.replicate 500 'a', ['a']] ∧
    isSplitBoundary 'a' = false := by
  constructor
  · decide
  · decide

/-- Claim C7 counterexample: when query generation hits the outer 3-second
timeout, `gather` returns empty context and performs *no* retrieval (the
recorded retrieval query is `none`, not the raw turn text). -/
theorem C7_counterexample :
    gather true (some "rec") AsyncOutcome.timeout
        (AsyncOutcome.completed (Except.ok [])) = ("", none) := rfl

/-- Claim C7 (amended): `need_rag = false` or a missing recording yields empty
context with no retrieval; the outer 3s timeout on query generation also
yields empty context with no retrieval; the fallback to the raw turn text
happens inside `generate_query` itself — on the inner LLM error, the inner
10s timeout, or an empty/over-100-byte response — and a usable response is
returned trimmed. -/
theorem C7_rag_degradation :
    (∀ (rid : Option String) (q : AsyncOutcome (Except Unit String))
        (ro : AsyncOutcome (Except Unit (List SearchResult))),
      gather false rid q ro = ("", none)) ∧
    (∀ (q : AsyncOutcome (Except Unit String))
        (ro : AsyncOutcome (Except Unit (List SearchResult))),
      gather true none q ro = ("", none)) ∧
    (∀ (rid : String) (ro : AsyncOutcome (Except Unit (List SearchResult))),
      gather true (some rid) AsyncOutcome.timeout ro = ("", none)) ∧
    (∀ u : String, generate_query AsyncOutcome.timeout u = .ok u) ∧
    (∀ (u : String) (e : Unit),
      generate_query (AsyncOutcome.completed (Except.error e)) u = .ok u) ∧
    (∀ u resp : String, trimString resp = "" ∨ 100 < utf8Len (trimString resp) →
      generate_query (AsyncOutcome.completed (Except.ok resp)) u = .ok u) ∧
    (∀ u resp : String, trimString resp ≠ "" → utf8Len (trimString resp) ≤ 100 →
      generate_query (AsyncOutcome.completed (Except.ok resp)) u
        = .ok (trimString resp)) := by
  refine ⟨fun rid q ro => rfl, fun q ro => rfl, fun rid ro => rfl,
    fun u => rfl, fun u e => rfl, ?_, ?_⟩
  · intro u resp h
    rcases h with h | h
    · simp [generate_query, h]
    · simp [generate_query, h]
  · intro u resp h1 h2
    have h3 : ¬ (100 < utf8Len (trimString resp)) := Nat.not_lt.2 h2
    simp [generate_query, h1, h3]

theorem C7_witness :
    generate_query (AsyncOutcome.completed (Except.ok " q ")) "turn"
      = .ok (trimString " q ") :=
  C7_rag_degradation.2.2.2.2.2.2 "turn" " q " (by decide) (by decide)

lemma truncHistory_length_le (h : List ChatMessage) :
    (truncHistory h).length ≤ MAX_HISTORY := by
  rw [truncHistory]
  split
  · rw [List.length_drop]
    omega
  · omega

/-- Claim C9 (amended): the history is at most six messages long after every
append/edit/grep finalisation and after the end-of-turn sync-back; the undo,
clear and single-step NO-OP paths push two messages without truncating, so
immediately after them the blackboard history exceeds the bound by two. -/
theorem C9_history_bounds :
    (∀ (h : List ChatMessage) (t r : String),
      (stepHist (.appendFinal t r) h).length ≤ MAX_HISTORY) ∧
    (∀ (h : List ChatMessage) (t r : String),
      (stepHist (.editFinal t r) h).length ≤ MAX_HISTORY) ∧
    (∀ (h : List ChatMessage) (t r : String),
      (stepHist (.grepFinal t r) h).length ≤ MAX_HISTORY) ∧
    (∀ h : List ChatMessage, (syncBack h).length ≤ MAX_HISTORY) ∧
    (∀ (h : List ChatMessage) (t x : String),
      (stepHist (.undoFinal t x) h).length = h.length + 2) ∧
    (∀ (h : List ChatMessage) (t : String),
      (stepHist (.clearFinal t) h).length = h.length + 2) ∧
    (∀ (h : List ChatMessage) (t : String),
      (stepHist (.noopSingle t) h).length = h.length + 2) := by
  have hpush : ∀ (h : List ChatMessage) (u a : String),
      (pushPair h u a).length = h.length + 2 := by
    intro h u a
    rw [pushPair, List.length_append]
    rfl
  refine ⟨fun h t r => truncHistory_length_le _, fun h t r => truncHistory_length_le _,
    fun h t r => truncHistory_length_le _, fun h => truncHistory_length_le _,
    fun h t x => hpush h t _, fun h t => hpush h t _, fun h t => hpush h t _⟩

/-- Claim C8: every result of `retrieve_unified` has similarity at least 0.7
(derived from the L2 distance as `1 - d^2/2`), the merged result list is
sorted by score in descending order, and its length is at most `top_k`. -/
theorem C8_retrieve_unified_spec (turnRows : List TurnRow)
    (resourceRows : List ResourceRow) (top_k : Nat) :
    (∀ r ∈ retrieve_unified turnRows resourceRows top_k, SIMILARITY_THRESHOLD ≤ r.score) ∧
    List.Sorted (fun a b : SearchResult => b.score ≤ a.score)
      (retrieve_unified turnRows resourceRows top_k) ∧
    (retrieve_unified turnRows resourceRows top_k).length ≤ top_k := by
  haveI htot : IsTotal SearchResult (fun a b => b.score ≤ a.score) :=
    ⟨fun a b => le_total b.score a.score⟩
  haveI htr : IsTrans SearchResult (fun a b => b.score ≤ a.score) :=
    ⟨fun a b c hab hbc => le_trans hbc hab⟩
  refine ⟨?_, ?_, ?_⟩
  · intro r hr
    simp only [retrieve_unified] at hr
    have hr1 := List.take_subset _ _ hr
    rw [sortByScoreDesc, List.mem_insertionSort] at hr1
    rcases List.mem_append.1 hr1 with hL | hR
    · rw [List.mem_map] at hL
      obtain ⟨⟨t, sc⟩, hmem, rfl⟩ := hL
      simp only [retrieve] at hmem
      have hmem2 := List.take_subset _ _ hmem
      rw [List.mem_filterMap] at hmem2
      obtain ⟨row, _, hrow⟩ := hmem2
      by_cases hth : SIMILARITY_THRESHOLD ≤ similarityOf (distanceValue row.distance)
      · rw [if_pos hth] at hrow
        simp only [Option.some.injEq, Prod.mk.injEq] at hrow
        obtain ⟨-, hsc⟩ := hrow
        show SIMILARITY_THRESHOLD ≤ sc
        rw [← hsc]
        exact hth
      · rw [if_neg hth] at hrow
        cases hrow
    · simp only [retrieve_resources] at hR
      have hR1 := List.take_subset _ _ hR
      rw [sortByScoreDesc, List.mem_insertionSort, List.mem_filterMap] at hR1
      obtain ⟨row, _, hrow⟩ := hR1
      by_cases hth : SIMILARITY_THRESHOLD ≤ similarityOf (distanceValue row.distance)
      · rw [if_pos hth] at hrow
        simp only [Option.some.injEq] at hrow
        rw [← hrow]
        exact hth
      · rw [if_neg hth] at hrow
        cases hrow
  · simp only [retrieve_unified]
    exact List.Pairwise.sublist (List.take_sublist _ _)
      (List.sorted_insertionSort (fun a b : SearchResult => b.score ≤ a.score) _)
  · simp only [retrieve_unified]
    rw [List.length_take]
    exact min_le_left _ _

theorem C8_witness :
    (SIMILARITY_THRESHOLD ≤ (⟨"hello", "conversation", 5, 1⟩ : SearchResult).score) ∧
    List.Sorted (fun a b : SearchResult => b.score ≤ a.score)
      (retrieve_unified [⟨"id1", 5, "hello", some 0⟩] [] 3) ∧
    (retrieve_unified [⟨"id1", 5, "hello", some 0⟩] [] 3).length ≤ 3 :=
  ⟨(C8_retrieve_unified_spec [⟨"id1", 5, "hello", some 0⟩] [] 3).1 _
      (of_decide_eq_true (by with_unfolding_all rfl)),
   (C8_retrieve_unified_spec [⟨"id1", 5, "hello", some 0⟩] [] 3).2.1,
   (C8_retrieve_unified_spec [⟨"id1", 5, "hello", some 0⟩] [] 3).2.2⟩

/-- Claim C9 counterexample: a legal post-sync history of six messages grows
to eight immediately after a CLEAR step — the blackboard history is not
bounded by six after *every* agent step. -/
theorem C9_counterexample :
    syncBack [⟨"user", "a"⟩, ⟨"assistant", "b"⟩, ⟨"user", "c"⟩,
              ⟨"assistant", "d"⟩, ⟨"user", "e"⟩, ⟨"assistant", "f"⟩]
      = [⟨"user", "a"⟩, ⟨"assistant", "b"⟩, ⟨"user", "c"⟩,
         ⟨"assistant", "d"⟩, ⟨"user", "e"⟩, ⟨"assistant", "f"⟩] ∧
    (stepHist (.clearFinal "clear it")
      [⟨"user", "a"⟩, ⟨"assistant", "b"⟩, ⟨"user", "c"⟩,
       ⟨"assistant", "d"⟩, ⟨"user", "e"⟩, ⟨"assistant", "f"⟩]).length = 8 ∧
    ¬ (8 ≤ MAX_HISTORY) := by
  refine ⟨by decide, by decide, by decide⟩

end Creek
